import Mathlib

set_option maxRecDepth 1000000

/-!
Verification of the sqids encoder/decoder (DavidAlphaFox/sqids-rust,
src/lib.rs) against its natural-language specification.

Strings are modelled as lists of characters (`List Char`), machine
integers as `Nat` with an explicit `% 2 ^ 64` (resp. `% 2 ^ 32`) wherever
the Rust code performs `u64` (resp. `u32`) arithmetic that could wrap.
Fallible operations (slice indexing, `Option::unwrap`) are modelled in
`Option`; `Result<T, Error>` is modelled as `Except SqidsError`.
-/

/-- Wrap bound of the Rust `u64` type. -/
def U64 : Nat := 2 ^ 64

/-- Wrap bound of the Rust `u32` type. -/
def U32 : Nat := 2 ^ 32

/-- Vec::swap from the Rust standard library: exchange the entries at
positions `i` and `j`.  Both calls in `Sqids::shuffle` have `i` and `j`
in bounds, where `List.set` and `List.getD` agree with the Rust
behaviour. -/
def listSwap (l : List Char) (i j : Nat) : List Char :=
  (l.set i (l.getD j 'A')).set j (l.getD i 'A')

/-- Loop body of `Sqids::shuffle` at index `i`.  The Rust code computes
`r` in `u32` arithmetic (`i as u32 * j as u32 + chars[i] as u32 +
chars[j] as u32`), which wraps modulo `2 ^ 32`; the modulus
`chars.len() as u32` is the list length (a Rust slice of more than
`2 ^ 32` characters is not realizable). -/
def shuffleStep (chars : List Char) (i : Nat) : List Char :=
  let n := chars.length
  let j := n - 1 - i
  let r := ((i * j + (chars.getD i 'A').toNat + (chars.getD j 'A').toNat) % U32) % n
  listSwap chars i r

/-- Sqids::shuffle: deterministic, content-seeded permutation.  Iterates
`i` over `0 .. chars.len() - 1` (exclusive), as the Rust `for` loop
does. -/
def shuffle (alphabet : List Char) : List Char :=
  (List.range (alphabet.length - 1)).foldl shuffleStep alphabet

/-- Iterator::position from the Rust standard library: index of the
first occurrence of `c`, or `none`. -/
def position (l : List Char) (c : Char) : Option Nat :=
  match l with
  | [] => none
  | x :: xs => if x = c then some 0 else (position xs c).map (· + 1)

/-- Digit loop of `Sqids::to_id`, structurally recursive on a fuel
argument that bounds the remaining value: the loop divides the value by
the base (at least 2 at every call site) each pass, so the value itself
is enough fuel, and the invariant `num ≤ fuel` holds throughout.  Under
that invariant the fuel-zero case forces `num = 0`, where the branch
taken agrees exactly with the general case, so no behaviour is cut off.
The Rust do-while loop diverges for alphabets of length at most 1; the
guard `2 ≤ alphabet.length` in the recursive branch reflects that every
call site passes an alphabet of at least 2 characters. -/
def to_idAux (alphabet : List Char) : Nat → Nat → List Char
  | 0, num => [alphabet.getD (num % alphabet.length) 'A']
  | fuel + 1, num =>
    if 2 ≤ alphabet.length ∧ alphabet.length ≤ num then
      to_idAux alphabet fuel (num / alphabet.length) ++
        [alphabet.getD (num % alphabet.length) 'A']
    else [alphabet.getD (num % alphabet.length) 'A']

/-- Sqids::to_id: base-N digit expansion of `num` over the digit
alphabet, most significant digit first, at least one digit. -/
def to_id (num : Nat) (alphabet : List Char) : List Char :=
  to_idAux alphabet num num

/-- Accumulator loop of `Sqids::to_number`.  The Rust
`alphabet.iter().position(..).unwrap()` panics when the character is
absent, modelled by `none`; the `u64` accumulation `result *
alphabet.len() + idx` wraps modulo `2 ^ 64`. -/
def to_numberAux (alphabet : List Char) (result : Nat) : List Char → Option Nat
  | [] => some result
  | c :: rest =>
    match position alphabet c with
    | none => none
    | some idx => to_numberAux alphabet ((result * alphabet.length + idx) % U64) rest

/-- Sqids::to_number: left fold of digits over the digit alphabet. -/
def to_number (id : List Char) (alphabet : List Char) : Option Nat :=
  to_numberAux alphabet 0 id

/-- Error enum of src/lib.rs. -/
inductive SqidsError where
  | AlphabetMultibyteCharacters
  | AlphabetLength
  | AlphabetUniqueCharacters
  | BlocklistMaxAttempts
deriving DecidableEq

/-- Sqids struct: canonical (shuffled) alphabet, minimum length, and the
filtered blocklist.  The Rust `blocklist` is a `HashSet<String>`; only
membership is ever observed (`is_blocked_id` scans it for any match), so
a list models it faithfully.  `min_length` is a `u8` in Rust; the bound
255 plays no role in any property, so plain `Nat` is used. -/
structure Sqids where
  alphabet : List Char
  min_length : Nat
  blocklist : List (List Char)

/-- Per-word test of `Sqids::is_blocked_id` (the body of its `for`
loop), applied to the already lowercased id. -/
def blocksWord (id word : List Char) : Bool :=
  if word.length ≤ id.length then
    if id.length ≤ 3 || word.length ≤ 3 then id == word
    else if word.any Char.isDigit then decide (word <+: id) || decide (word <:+ id)
    else decide (word <:+: id)
  else false

/-- Sqids::is_blocked_id: lowercase the candidate id, then scan the
blocklist for any matching word (the Rust loop returns `true` on the
first match).  Characters of ids produced over a validated alphabet are
ASCII, where Rust `str::to_lowercase` agrees with `Char.toLower`. -/
def Sqids.is_blocked_id (s : Sqids) (id : List Char) : Bool :=
  s.blocklist.any (fun word => blocksWord (id.map Char.toLower) word)

/-- Sqids::new: validation and construction.  The Rust duplicate test
compares a `HashSet` size with the length, which holds exactly when the
alphabet has no duplicates.  Word filtering lowercases each word
(`str::to_lowercase`; `Char.toLower` agrees on the ASCII words that can
survive the membership filter) and keeps words of length at least 3 all
of whose characters occur in the lowercased alphabet. -/
def Sqids.new (alphabet : List Char) (min_length : Nat) (blocklist : List (List Char)) :
    Except SqidsError Sqids :=
  if alphabet.any (fun c => 1 < c.utf8Size) then .error .AlphabetMultibyteCharacters
  else if alphabet.length < 3 then .error .AlphabetLength
  else if ¬ alphabet.Nodup then .error .AlphabetUniqueCharacters
  else
    .ok ⟨shuffle alphabet, min_length,
      (blocklist.map (fun w => w.map Char.toLower)).filter
        (fun w => 3 ≤ w.length && w.all (fun c => (alphabet.map Char.toLower).contains c))⟩

/-- Rotation `self.alphabet.iter().cycle().skip(offset).take(len)` used
by both pipelines; `offset` is always reduced modulo the length, so one
period suffices. -/
def rotateAt (l : List Char) (offset : Nat) : List Char :=
  l.drop offset ++ l.take offset

/-- Offset fold of `Sqids::encode_numbers`: accumulator starts at the
element count; each step adds the ordinal of
`alphabet[value % alphabet.len()]` plus the index, in `usize` (64-bit)
arithmetic. -/
def offsetFold (s : Sqids) (numbers : List Nat) : Nat :=
  (numbers.enum.foldl
    (fun a p => ((s.alphabet.getD (p.2 % s.alphabet.length) 'A').toNat + p.1 + a) % U64)
    numbers.length) % s.alphabet.length

/-- Per-number loop of `Sqids::encode_numbers`: emit the digit chunk of
each number over the working alphabet without its first character;
between numbers emit the separator (the working alphabet head) and
reshuffle.  Returns the concatenated body and the final working
alphabet. -/
def encodeLoop (alphabet : List Char) : List Nat → List Char × List Char
  | [] => ([], alphabet)
  | [num] => (to_id num alphabet.tail, alphabet)
  | num :: num2 :: rest =>
    let chunk := to_id num alphabet.tail
    let next := shuffle alphabet
    let pr := encodeLoop next (num2 :: rest)
    (chunk ++ alphabet.headD 'A' :: pr.1, pr.2)

/-- Padding loop of `Sqids::encode_numbers` (step 7): while the id is
shorter than the minimum length, reshuffle the working alphabet and
append a slice of it covering at most the missing length.  Each pass
appends at least one character whenever the alphabet is nonempty, so
`minLen` units of fuel always suffice; fuel exhaustion returns the id
unchanged and is proved unreachable for constructed instances. -/
def padLoop (minLen : Nat) : Nat → List Char → List Char → List Char
  | 0, _, id => id
  | fuel + 1, alphabet, id =>
    if 0 < minLen - id.length then
      let alphabet2 := shuffle alphabet
      let sliceLen := min (minLen - id.length) alphabet2.length
      padLoop minLen fuel alphabet2 (id ++ alphabet2.take sliceLen)
    else id

/-- Candidate id built by one pass of `Sqids::encode_numbers` before the
blocklist test: offset derivation, rotate-then-reverse working alphabet,
leading alphabet character, digit chunks with separators, and minimum
length padding. -/
def encodeCandidate (s : Sqids) (numbers : List Nat) (increment : Nat) : List Char :=
  let offset := (offsetFold s numbers + increment) % s.alphabet.length
  let alphabet0 := rotateAt s.alphabet offset
  let pre := alphabet0.headD 'A'
  let alphabet1 := alphabet0.reverse
  let pr := encodeLoop alphabet1 numbers
  let id := pre :: pr.1
  if id.length < s.min_length then
    padLoop s.min_length s.min_length pr.2 (id ++ [pr.2.headD 'A'])
  else id

/-- Retry loop of `Sqids::encode_numbers`, structurally recursive on the
fuel `alphabet.len + 1 - increment`, which is exactly the number of
remaining admissible attempts: fuel zero holds precisely when
`increment` exceeds the alphabet length, which is the Rust failure
branch, so the fuel encodes the Rust control flow with no behaviour cut
off. -/
def encodeNumbersAux (s : Sqids) (numbers : List Nat) : Nat → Nat → Except SqidsError (List Char)
  | 0, _ => .error .BlocklistMaxAttempts
  | fuel + 1, increment =>
    if s.alphabet.length < increment then .error .BlocklistMaxAttempts
    else if s.is_blocked_id (encodeCandidate s numbers increment) then
      encodeNumbersAux s numbers fuel (increment + 1)
    else .ok (encodeCandidate s numbers increment)

/-- Sqids::encode_numbers: fail once `increment` exceeds the alphabet
length, otherwise build the candidate id and retry with `increment + 1`
when the blocklist rejects it. -/
def Sqids.encode_numbers (s : Sqids) (numbers : List Nat) (increment : Nat) :
    Except SqidsError (List Char) :=
  encodeNumbersAux s numbers (s.alphabet.length + 1 - increment) increment

/-- Sqids::encode: empty input maps to the empty id, otherwise run
`encode_numbers` starting at increment 0. -/
def Sqids.encode (s : Sqids) (numbers : List Nat) : Except SqidsError (List Char) :=
  if numbers = [] then .ok [] else s.encode_numbers numbers 0

/-- Decode loop of `Sqids::decode` on the remainder after the leading
character: split on the current separator (the working alphabet head),
stop on an empty first chunk, otherwise decode the first chunk over the
working alphabet without its head, reshuffle when more than one chunk
resulted, and continue on the rejoined remaining chunks.  Indexing into
an empty alphabet and the panics inside `to_number` are modelled by
`none`; the impossible empty result of `split` (Rust `str::split` always
yields at least one piece, as does `List.splitOn`) is modelled by `none`
as the Rust code would panic slicing `chunks[1..]`. -/
def decodeLoopAux : Nat → List Char → List Char → Option (List Nat)
  | 0, _, id => if id = [] then some [] else none
  | fuel + 1, alphabet, id =>
    if id = [] then some []
    else
      match alphabet with
      | [] => none
      | sep :: alphabetTail =>
        match id.splitOn sep with
        | [] => none
        | c0 :: ctail =>
          if c0 = [] then some []
          else
            match to_number c0 alphabetTail with
            | none => none
            | some n =>
              match decodeLoopAux fuel
                  (if ctail.isEmpty then sep :: alphabetTail
                    else shuffle (sep :: alphabetTail))
                  ([sep].intercalate ctail) with
              | none => none
              | some ns => some (n :: ns)

/-- Wrapper that runs the loop with enough fuel.  Each pass consumes the
first chunk and one separator, so the remainder shrinks strictly and the
length of the input bounds the number of passes; under the invariant
`id.length ≤ fuel` the fuel-zero case forces `id = []`, where the result
agrees exactly with the general case, so no behaviour is cut off (this
fuel irrelevance is proved below as `decodeLoopAux_fuel`). -/
def decodeLoop (alphabet : List Char) (id : List Char) : Option (List Nat) :=
  decodeLoopAux id.length alphabet id

/-- Sqids::decode: empty input and ids containing a character outside
the canonical alphabet decode to the empty sequence; otherwise the first
character fixes the offset, the working alphabet is rebuilt by
rotate-then-reverse, and the loop runs on the rest.  The `unwrap` on the
position lookup is modelled by `Option`. -/
def Sqids.decode (s : Sqids) (id : List Char) : Option (List Nat) :=
  match id with
  | [] => some []
  | pre :: rest =>
    if ¬ (pre :: rest).all (fun c => decide (c ∈ s.alphabet)) then some []
    else
      match position s.alphabet pre with
      | none => none
      | some offset => decodeLoop (rotateAt s.alphabet offset).reverse rest

/-- Well-formedness established by `Sqids::new`: the canonical alphabet
has at least 3 characters, no duplicates, and only single-byte (ASCII)
characters. -/
def Sqids.WF (s : Sqids) : Prop :=
  3 ≤ s.alphabet.length ∧ s.alphabet.Nodup ∧ ∀ c ∈ s.alphabet, c.toNat < 128

/-- Default 62-character alphabet of `impl Default for Options`. -/
def defaultAlphabet : List Char :=
  "abcdefghijklmnopqrstuvwxyzABCDEFGHIJKLMNOPQRSTUVWXYZ0123456789".data

/-- Shuffle loop body exactly as the specification words it, with exact
(unbounded) arithmetic: `r = (i * j + ordinal(seq[i]) + ordinal(seq[j]))
mod n`. -/
def specShuffleStep (chars : List Char) (i : Nat) : List Char :=
  let n := chars.length
  let j := n - 1 - i
  let r := (i * j + (chars.getD i 'A').toNat + (chars.getD j 'A').toNat) % n
  listSwap chars i r

/-- Shuffle exactly as the specification words it: iterate `i` from 0 to
`n - 2`, swapping positions `i` and `r`. -/
def specShuffle (seq : List Char) : List Char :=
  (List.range (seq.length - 1)).foldl specShuffleStep seq

/-- Blocklist word rule exactly as the specification words it, for a
word tested against the lowercased id. -/
def specWordBlocks (id word : List Char) : Prop :=
  word.length ≤ id.length ∧
    (if id.length ≤ 3 ∨ word.length ≤ 3 then id = word
     else if ∃ c ∈ word, c.isDigit then word <+: id ∨ word <:+ id
     else word <:+: id)

/-! Basic lemmas about the swap and shuffle operations. -/

theorem listSwap_set_self (l : List Char) (i : Nat) (h : i < l.length) :
    l.set i (l.getD i 'A') = l := by
  rw [List.getD_eq_getElem l 'A' h, List.set_eq_take_append_cons_drop, if_pos h,
    List.getElem_cons_drop, List.take_append_drop]

theorem cons_set_perm (t : List Char) (a : Char) (m : Nat) (hm : m < t.length) :
    (t.getD m 'A' :: t.set m a).Perm (a :: t) := by
  have hd : t.getD m 'A' = t[m] := List.getD_eq_getElem t 'A' hm
  have hset : t.set m a = t.take m ++ a :: t.drop (m + 1) := by
    rw [List.set_eq_take_append_cons_drop, if_pos hm]
  have ht : t.take m ++ t[m] :: t.drop (m + 1) = t := by
    rw [List.getElem_cons_drop, List.take_append_drop]
  rw [hd, hset]
  calc t[m] :: (t.take m ++ a :: t.drop (m + 1))
      |>.Perm (t[m] :: a :: (t.take m ++ t.drop (m + 1))) := List.Perm.cons _ List.perm_middle
    _ |>.Perm (a :: t[m] :: (t.take m ++ t.drop (m + 1))) := List.Perm.swap _ _ _
    _ |>.Perm (a :: (t.take m ++ t[m] :: t.drop (m + 1))) :=
        List.Perm.cons _ List.perm_middle.symm
    _ = a :: t := by rw [ht]

theorem listSwap_perm (l : List Char) (i j : Nat) (hi : i < l.length) (hj : j < l.length) :
    (listSwap l i j).Perm l := by
  induction l generalizing i j with
  | nil => simp at hi
  | cons a t ih =>
    match i, j with
    | 0, 0 =>
      simp only [listSwap, List.getD_cons_zero, List.set]
      exact List.Perm.refl _
    | 0, m + 1 =>
      have hm : m < t.length := by simpa using hj
      simp only [listSwap, List.getD_cons_zero, List.getD_cons_succ, List.set]
      exact cons_set_perm t a m hm
    | n + 1, 0 =>
      have hn : n < t.length := by simpa using hi
      simp only [listSwap, List.getD_cons_zero, List.getD_cons_succ, List.set]
      exact cons_set_perm t a n hn
    | n + 1, m + 1 =>
      have hn : n < t.length := by simpa using hi
      have hm : m < t.length := by simpa using hj
      simp only [listSwap, List.getD_cons_succ, List.set]
      exact List.Perm.cons a (ih n m hn hm)

theorem shuffleStep_perm (chars : List Char) (i : Nat) (h : i < chars.length) :
    (shuffleStep chars i).Perm chars := by
  have hn : 0 < chars.length := Nat.lt_of_le_of_lt (Nat.zero_le i) h
  exact listSwap_perm chars i _ h (Nat.mod_lt _ hn)

theorem foldl_shuffleStep_perm (is : List Nat) :
    ∀ l : List Char, (∀ i ∈ is, i < l.length) → (is.foldl shuffleStep l).Perm l := by
  induction is with
  | nil => intro l _; exact List.Perm.refl l
  | cons i is ih =>
    intro l h
    have hp := shuffleStep_perm l i (h i (List.mem_cons_self i is))
    have h2 : ∀ k ∈ is, k < (shuffleStep l i).length := by
      intro k hk
      rw [hp.length_eq]
      exact h k (List.mem_cons_of_mem i hk)
    exact (ih (shuffleStep l i) h2).trans hp

theorem shuffle_perm (l : List Char) : (shuffle l).Perm l := by
  apply foldl_shuffleStep_perm
  intro i hi
  have := List.mem_range.mp hi
  omega

theorem length_shuffle (l : List Char) : (shuffle l).length = l.length :=
  (shuffle_perm l).length_eq

theorem mem_shuffle_iff (l : List Char) (c : Char) : c ∈ shuffle l ↔ c ∈ l :=
  (shuffle_perm l).mem_iff

theorem shuffle_nodup (l : List Char) (h : l.Nodup) : (shuffle l).Nodup :=
  ((shuffle_perm l).nodup_iff).mpr h

theorem shuffle_ne_nil (l : List Char) (h : l ≠ []) : shuffle l ≠ [] := by
  intro hc
  apply h
  have := length_shuffle l
  rw [hc] at this
  exact List.length_eq_zero.mp this.symm

/-! Lemmas about position, the digit codec and its inverse. -/

theorem position_getElem (l : List Char) (hl : l.Nodup) (k : Nat) (hk : k < l.length) :
    position l l[k] = some k := by
  induction l generalizing k with
  | nil => simp at hk
  | cons x xs ih =>
    match k with
    | 0 => simp [position]
    | k + 1 =>
      have hk2 : k < xs.length := by simpa using hk
      have hx : x ∉ xs := (List.nodup_cons.mp hl).1
      have hne : x ≠ xs[k] := fun h => hx (h ▸ List.getElem_mem hk2)
      show position (x :: xs) xs[k] = some (k + 1)
      rw [position, if_neg hne, ih (List.nodup_cons.mp hl).2 k hk2]
      rfl

theorem position_isSome_of_mem (l : List Char) (c : Char) (h : c ∈ l) :
    (position l c).isSome := by
  induction l with
  | nil => simp at h
  | cons x xs ih =>
    rw [position]
    by_cases hx : x = c
    · rw [if_pos hx]; rfl
    · rw [if_neg hx]
      have : c ∈ xs := by
        rcases List.mem_cons.mp h with h1 | h1
        · exact absurd h1.symm hx
        · exact h1
      rcases Option.isSome_iff_exists.mp (ih this) with ⟨k, hk⟩
      rw [hk]
      rfl

theorem to_idAux_fuel (a : List Char) :
    ∀ (f1 : Nat) (num f2 : Nat), num ≤ f1 → num ≤ f2 →
      to_idAux a f1 num = to_idAux a f2 num := by
  intro f1
  induction f1 with
  | zero =>
    intro num f2 h1 _
    have hz : num = 0 := by omega
    subst hz
    cases f2 with
    | zero => rfl
    | succ g => rw [to_idAux, to_idAux, if_neg (by omega)]
  | succ f ih =>
    intro num f2 h1 h2
    cases f2 with
    | zero =>
      have hz : num = 0 := by omega
      subst hz
      rw [to_idAux, to_idAux, if_neg (by omega)]
    | succ g =>
      rw [to_idAux, to_idAux]
      by_cases h : 2 ≤ a.length ∧ a.length ≤ num
      · rw [if_pos h, if_pos h]
        have hdiv : num / a.length < num := Nat.div_lt_self (by omega) (by omega)
        rw [ih (num / a.length) g (by omega) (by omega)]
      · rw [if_neg h, if_neg h]

theorem to_id_eq (num : Nat) (a : List Char) :
    to_id num a =
      if 2 ≤ a.length ∧ a.length ≤ num then
        to_id (num / a.length) a ++ [a.getD (num % a.length) 'A']
      else [a.getD (num % a.length) 'A'] := by
  unfold to_id
  cases num with
  | zero =>
    rw [to_idAux, if_neg (by omega)]
  | succ n =>
    rw [to_idAux]
    by_cases h : 2 ≤ a.length ∧ a.length ≤ n + 1
    · rw [if_pos h, if_pos h]
      have hdiv : (n + 1) / a.length < n + 1 := Nat.div_lt_self (by omega) (by omega)
      rw [to_idAux_fuel a n ((n + 1) / a.length) ((n + 1) / a.length) (by omega) (le_refl _)]
    · rw [if_neg h, if_neg h]

theorem to_id_ne_nil (n : Nat) (B : List Char) : to_id n B ≠ [] := by
  rw [to_id_eq]
  split <;> simp

theorem to_id_mem (n : Nat) (B : List Char) :
    ∀ c ∈ to_id n B, 0 < B.length → c ∈ B := by
  induction n using Nat.strong_induction_on with
  | _ n ih =>
    intro c hc hB
    rw [to_id_eq] at hc
    by_cases h : 2 ≤ B.length ∧ B.length ≤ n
    · rw [if_pos h] at hc
      rcases List.mem_append.mp hc with h1 | h1
      · exact ih (n / B.length) (Nat.div_lt_self (by omega) (by omega)) c h1 hB
      · have : c = B.getD (n % B.length) 'A' := by simpa using h1
        have hlt : n % B.length < B.length := Nat.mod_lt _ hB
        rw [this, List.getD_eq_getElem B 'A' hlt]
        exact List.getElem_mem hlt
    · rw [if_neg h] at hc
      have : c = B.getD (n % B.length) 'A' := by simpa using hc
      have hlt : n % B.length < B.length := Nat.mod_lt _ hB
      rw [this, List.getD_eq_getElem B 'A' hlt]
      exact List.getElem_mem hlt

theorem to_numberAux_append (B : List Char) (r : Nat) (xs ys : List Char) :
    to_numberAux B r (xs ++ ys) =
      (to_numberAux B r xs).bind (fun r2 => to_numberAux B r2 ys) := by
  induction xs generalizing r with
  | nil => simp [to_numberAux]
  | cons c rest ih =>
    rw [List.cons_append, to_numberAux, to_numberAux]
    cases position B c with
    | none => rfl
    | some idx => exact ih _

theorem to_number_to_id (B : List Char) (hB : B.Nodup) (hlen : 2 ≤ B.length) :
    ∀ n, n < U64 → to_number (to_id n B) B = some n := by
  intro n
  induction n using Nat.strong_induction_on with
  | _ n ih =>
    intro hn
    have hBpos : 0 < B.length := by omega
    have hmod : n % B.length < B.length := Nat.mod_lt _ hBpos
    by_cases h : B.length ≤ n
    · rw [to_id_eq, if_pos ⟨hlen, h⟩]
      unfold to_number
      rw [to_numberAux_append]
      have hdivlt : n / B.length < n := Nat.div_lt_self (by omega) (by omega)
      have hdiv64 : n / B.length < U64 := Nat.lt_of_le_of_lt (Nat.div_le_self n _) hn
      have := ih (n / B.length) hdivlt hdiv64
      unfold to_number at this
      rw [this]
      show to_numberAux B (n / B.length) [B.getD (n % B.length) 'A'] = some n
      rw [List.getD_eq_getElem B 'A' hmod, to_numberAux, position_getElem B hB _ hmod]
      show some ((n / B.length * B.length + n % B.length) % U64) = some n
      rw [Nat.mul_comm, Nat.div_add_mod, Nat.mod_eq_of_lt hn]
    · rw [to_id_eq, if_neg (fun hc => h hc.2)]
      have hlt : n < B.length := by omega
      have hmodeq : n % B.length = n := Nat.mod_eq_of_lt hlt
      unfold to_number
      rw [List.getD_eq_getElem B 'A' hmod, to_numberAux]
      simp only [hmodeq]
      rw [position_getElem B hB n hlt]
      show some ((0 * B.length + n) % U64) = some n
      rw [Nat.zero_mul, Nat.zero_add, Nat.mod_eq_of_lt hn]

/-! Lemmas about splitting, joining and rotating. -/

theorem splitOn_eq_splitOnP (sep : Char) (l : List Char) :
    l.splitOn sep = l.splitOnP (· == sep) := rfl

theorem splitOn_append_sep (sep : Char) (xs as : List Char) (h : sep ∉ xs) :
    (xs ++ sep :: as).splitOn sep = xs :: as.splitOn sep := by
  rw [splitOn_eq_splitOnP, splitOn_eq_splitOnP]
  apply List.splitOnP_first
  · intro x hx
    simp only [beq_iff_eq]
    exact fun he => h (he ▸ hx)
  · exact beq_self_eq_true sep

theorem splitOn_of_not_mem (sep : Char) (xs : List Char) (h : sep ∉ xs) :
    xs.splitOn sep = [xs] := by
  rw [splitOn_eq_splitOnP]
  apply List.splitOnP_eq_single
  intro x hx
  simp only [beq_iff_eq]
  exact fun he => h (he ▸ hx)

theorem splitOn_cons_self (sep : Char) (xs : List Char) :
    (sep :: xs).splitOn sep = [] :: xs.splitOn sep := by
  rw [splitOn_eq_splitOnP, List.splitOnP_cons, if_pos (beq_self_eq_true sep),
    splitOn_eq_splitOnP]

theorem splitOn_head_not_mem (sep : Char) :
    ∀ (id : List Char) c0 ctail, id.splitOn sep = c0 :: ctail → sep ∉ c0 := by
  intro id
  induction id with
  | nil =>
    intro c0 ctail h
    rw [List.splitOn_nil] at h
    cases h
    exact List.not_mem_nil sep
  | cons x xs ih =>
    intro c0 ctail h
    rw [splitOn_eq_splitOnP, List.splitOnP_cons] at h
    cases hx : (x == sep) with
    | true =>
      rw [if_pos hx] at h
      cases h
      exact List.not_mem_nil sep
    | false =>
      rw [if_neg (by rw [hx]; exact Bool.false_ne_true)] at h
      obtain ⟨h0, t0, ht⟩ := List.exists_cons_of_ne_nil (List.splitOnP_ne_nil _ xs)
      rw [ht] at h
      simp only [List.modifyHead] at h
      cases h
      intro hmem
      rcases List.mem_cons.mp hmem with h1 | h1
      · exact (beq_eq_false_iff_ne.mp hx) h1.symm
      · exact ih h0 ctail (by rw [splitOn_eq_splitOnP]; exact ht) h1

theorem intercalate_nil_chunks (sep : Char) :
    [sep].intercalate ([] : List (List Char)) = [] := rfl

theorem intercalate_single (sep : Char) (c0 : List Char) :
    [sep].intercalate [c0] = c0 := by
  simp [List.intercalate]

theorem intercalate_cons2 (sep : Char) (c0 c1 : List Char) (rest : List (List Char)) :
    [sep].intercalate (c0 :: c1 :: rest) = c0 ++ [sep] ++ [sep].intercalate (c1 :: rest) := by
  simp [List.intercalate, List.intersperse_cons_cons]

theorem length_rotateAt (l : List Char) (o : Nat) : (rotateAt l o).length = l.length := by
  simp only [rotateAt, List.length_append, List.length_drop, List.length_take]
  omega

theorem rotateAt_perm (l : List Char) (o : Nat) : (rotateAt l o).Perm l := by
  rw [rotateAt]
  exact List.perm_append_comm.trans (by rw [List.take_append_drop])

theorem headD_rotateAt (l : List Char) (o : Nat) (h : o < l.length) :
    (rotateAt l o).headD 'A' = l[o] := by
  rw [rotateAt, List.headD_eq_head?_getD, List.head?_append]
  rw [List.head?_drop, List.getElem?_eq_getElem h]
  rfl

theorem headD_mem (l : List Char) (h : l ≠ []) : l.headD 'A' ∈ l := by
  cases l with
  | nil => exact absurd rfl h
  | cons a t => exact List.mem_cons_self a t

theorem char_toNat_lt (c : Char) : c.toNat < 1114112 := by
  rcases c.valid with h | ⟨h1, h2⟩
  · exact Nat.lt_trans h (by norm_num)
  · exact h2

/-! Lemmas about the padding loop and the per-number encode loop. -/

theorem padLoop_length (m : Nat) :
    ∀ (f : Nat) (a x : List Char), a ≠ [] → m - x.length ≤ f →
      m ≤ (padLoop m f a x).length := by
  intro f
  induction f with
  | zero =>
    intro a x _ hf
    rw [padLoop]
    omega
  | succ f ih =>
    intro a x ha hf
    rw [padLoop]
    by_cases h0 : 0 < m - x.length
    · rw [if_pos h0]
      have ha2 : shuffle a ≠ [] := shuffle_ne_nil a ha
      have ha2len : 0 < (shuffle a).length := List.length_pos.mpr ha2
      have hk : (min (m - x.length) (shuffle a).length) ≤ (shuffle a).length :=
        Nat.min_le_right _ _
      have hkpos : 0 < min (m - x.length) (shuffle a).length := by
        rw [Nat.lt_min]
        exact ⟨h0, ha2len⟩
      apply ih (shuffle a) _ ha2
      simp only [List.length_append, List.length_take]
      omega
    · rw [if_neg h0]
      omega

theorem padLoop_structure (m : Nat) :
    ∀ (f : Nat) (a x : List Char), a ≠ [] →
      ∃ junk, padLoop m f a x = x ++ junk ∧
        (junk = [] ∨ ∃ j2, junk = (shuffle a).headD 'A' :: j2) ∧
        ∀ c ∈ junk, c ∈ a := by
  intro f
  induction f with
  | zero =>
    intro a x _
    exact ⟨[], by rw [padLoop, List.append_nil], Or.inl rfl, by simp⟩
  | succ f ih =>
    intro a x ha
    by_cases h0 : 0 < m - x.length
    · have ha2 : shuffle a ≠ [] := shuffle_ne_nil a ha
      have ha2len : 0 < (shuffle a).length := List.length_pos.mpr ha2
      obtain ⟨junk2, h1, _, h3⟩ :=
        ih (shuffle a) (x ++ (shuffle a).take (min (m - x.length) (shuffle a).length)) ha2
      refine ⟨(shuffle a).take (min (m - x.length) (shuffle a).length) ++ junk2, ?_, ?_, ?_⟩
      · rw [padLoop, if_pos h0, h1, List.append_assoc]
      · right
        have hkpos : 0 < min (m - x.length) (shuffle a).length := by
          rw [Nat.lt_min]
          exact ⟨h0, ha2len⟩
        obtain ⟨k, hk⟩ : ∃ k, min (m - x.length) (shuffle a).length = k + 1 :=
          ⟨min (m - x.length) (shuffle a).length - 1, by omega⟩
        obtain ⟨h, t, hht⟩ := List.exists_cons_of_ne_nil ha2
        refine ⟨t.take k ++ junk2, ?_⟩
        rw [hk, hht, List.take_succ_cons]
        simp
      · intro c hc
        rcases List.mem_append.mp hc with h1m | h1m
        · exact (mem_shuffle_iff a c).mp (List.mem_of_mem_take h1m)
        · exact (mem_shuffle_iff a c).mp (h3 c h1m)
    · refine ⟨[], ?_, Or.inl rfl, by simp⟩
      rw [padLoop, if_neg h0, List.append_nil]

theorem encodeLoop_snd_perm (ns : List Nat) :
    ∀ A : List Char, ((encodeLoop A ns).2).Perm A := by
  induction ns with
  | nil => intro A; exact List.Perm.refl A
  | cons n rest ih =>
    intro A
    cases rest with
    | nil => exact List.Perm.refl A
    | cons n2 rest2 =>
      show ((encodeLoop (shuffle A) (n2 :: rest2)).2).Perm A
      exact (ih (shuffle A)).trans (shuffle_perm A)

theorem encodeLoop_fst_mem (ns : List Nat) :
    ∀ A : List Char, 2 ≤ A.length → ∀ c ∈ (encodeLoop A ns).1, c ∈ A := by
  induction ns with
  | nil => intro A _ c hc; simp [encodeLoop] at hc
  | cons n rest ih =>
    intro A hA c hc
    have hAne : A ≠ [] := by
      intro h
      rw [h] at hA
      simp at hA
    have htail : 0 < A.tail.length := by
      rw [List.length_tail]
      omega
    cases rest with
    | nil =>
      have : c ∈ to_id n A.tail := hc
      exact List.mem_of_mem_tail (to_id_mem n A.tail c this htail)
    | cons n2 rest2 =>
      rcases List.mem_append.mp hc with h1 | h1
      · exact List.mem_of_mem_tail (to_id_mem n A.tail c h1 htail)
      · rcases List.mem_cons.mp h1 with h2 | h2
        · rw [h2]
          exact headD_mem A hAne
        · have hlen2 : 2 ≤ (shuffle A).length := by rw [length_shuffle]; exact hA
          exact (mem_shuffle_iff A c).mp (ih (shuffle A) hlen2 c h2)

/-! Evaluation lemmas for the decode loop. -/

theorem splitOn_tail_length (sep : Char) (id c0 : List Char) (ctail : List (List Char))
    (hch : id.splitOn sep = c0 :: ctail) (hc0 : c0 ≠ []) :
    ([sep].intercalate ctail).length < id.length := by
  have hrejoin := List.intercalate_splitOn id sep
  rw [hch] at hrejoin
  cases ctail with
  | nil =>
    rw [intercalate_single] at hrejoin
    subst hrejoin
    rw [intercalate_nil_chunks]
    simpa using List.length_pos.mpr hc0
  | cons c1 rest =>
    rw [intercalate_cons2] at hrejoin
    have hlen := congrArg List.length hrejoin
    simp only [List.length_append] at hlen
    have hc0len : 0 < c0.length := List.length_pos.mpr hc0
    omega

theorem decodeLoopAux_fuel :
    ∀ (k : Nat) (id : List Char) (f1 f2 : Nat) (A : List Char),
      id.length ≤ k → id.length ≤ f1 → id.length ≤ f2 →
      decodeLoopAux f1 A id = decodeLoopAux f2 A id := by
  intro k
  induction k with
  | zero =>
    intro id f1 f2 A hk _ _
    have hid : id = [] := List.length_eq_zero.mp (by omega)
    subst hid
    cases f1 <;> cases f2 <;> simp [decodeLoopAux]
  | succ k ih =>
    intro id f1 f2 A hk h1 h2
    by_cases hid : id = []
    · subst hid
      cases f1 <;> cases f2 <;> simp [decodeLoopAux]
    · have hlenpos : 0 < id.length := List.length_pos.mpr hid
      obtain ⟨g1, rfl⟩ : ∃ g, f1 = g + 1 := ⟨f1 - 1, by omega⟩
      obtain ⟨g2, rfl⟩ : ∃ g, f2 = g + 1 := ⟨f2 - 1, by omega⟩
      cases A with
      | nil => rw [decodeLoopAux.eq_2, decodeLoopAux.eq_2]
      | cons sep tail =>
        rw [decodeLoopAux.eq_3, decodeLoopAux.eq_3, if_neg hid, if_neg hid]
        cases hch : id.splitOn sep with
        | nil => rfl
        | cons c0 ctail =>
          simp only []
          by_cases hc0 : c0 = []
          · rw [if_pos hc0, if_pos hc0]
          · rw [if_neg hc0, if_neg hc0]
            cases to_number c0 tail with
            | none => rfl
            | some n =>
              have hdec := splitOn_tail_length sep id c0 ctail hch hc0
              rw [ih ([sep].intercalate ctail) g1 g2 _ (by omega) (by omega) (by omega)]

theorem decodeLoop_nil (A : List Char) : decodeLoop A [] = some [] := rfl

theorem decodeLoop_eq_branch (sep : Char) (tail id : List Char) (hid : id ≠ []) :
    decodeLoop (sep :: tail) id =
      match id.splitOn sep with
      | [] => none
      | c0 :: ctail =>
        if c0 = [] then some []
        else
          match to_number c0 tail with
          | none => none
          | some n =>
            match decodeLoop (if ctail.isEmpty then sep :: tail else shuffle (sep :: tail))
                ([sep].intercalate ctail) with
            | none => none
            | some ns => some (n :: ns)
    := by
  have hlenpos : 0 < id.length := List.length_pos.mpr hid
  obtain ⟨f, hf⟩ : ∃ f, id.length = f + 1 := ⟨id.length - 1, by omega⟩
  unfold decodeLoop
  rw [hf, decodeLoopAux, if_neg hid]
  cases hch : id.splitOn sep with
  | nil => rfl
  | cons c0 ctail =>
    simp only []
    by_cases hc0 : c0 = []
    · rw [if_pos hc0, if_pos hc0]
    · rw [if_neg hc0, if_neg hc0]
      cases to_number c0 tail with
      | none => rfl
      | some n =>
        have hdec := splitOn_tail_length sep id c0 ctail hch hc0
        rw [decodeLoopAux_fuel ([sep].intercalate ctail).length ([sep].intercalate ctail)
          f ([sep].intercalate ctail).length _ (le_refl _) (by omega) (le_refl _)]

theorem decodeLoop_chunk_sep (sep : Char) (tail chunk rest : List Char) (n : Nat)
    (hchunk : chunk ≠ []) (hsep : sep ∉ chunk) (hnum : to_number chunk tail = some n) :
    decodeLoop (sep :: tail) (chunk ++ sep :: rest) =
      (decodeLoop (shuffle (sep :: tail)) rest).map (fun ns => n :: ns) := by
  have hid : chunk ++ sep :: rest ≠ [] := by simp
  rw [decodeLoop_eq_branch sep tail _ hid, splitOn_append_sep sep chunk rest hsep]
  obtain ⟨h0, t0, hst⟩ := List.exists_cons_of_ne_nil
    (show rest.splitOn sep ≠ [] from by
      rw [splitOn_eq_splitOnP]; exact List.splitOnP_ne_nil _ rest)
  rw [hst]
  have hint : [sep].intercalate (h0 :: t0) = rest := by
    rw [← hst]; exact List.intercalate_splitOn rest sep
  simp only [if_neg hchunk, hnum, List.isEmpty_cons, Bool.false_eq_true, if_false, hint]
  cases decodeLoop (shuffle (sep :: tail)) rest <;> rfl

theorem decodeLoop_chunk_last (sep : Char) (tail chunk : List Char) (n : Nat)
    (hchunk : chunk ≠ []) (hsep : sep ∉ chunk) (hnum : to_number chunk tail = some n) :
    decodeLoop (sep :: tail) chunk = some [n] := by
  rw [decodeLoop_eq_branch sep tail chunk hchunk, splitOn_of_not_mem sep chunk hsep]
  simp only [if_neg hchunk, hnum, List.isEmpty_nil, if_true, intercalate_nil_chunks,
    decodeLoop_nil]

theorem decodeLoop_sep_head (sep : Char) (tail junk : List Char) :
    decodeLoop (sep :: tail) (sep :: junk) = some [] := by
  rw [decodeLoop_eq_branch sep tail _ (List.cons_ne_nil sep junk), splitOn_cons_self sep junk]
  simp

/-! The decode loop inverts the encode loop, for any working alphabet and
any of the three tail shapes the padding step can produce. -/

theorem decodeLoop_encodeLoop (nums : List Nat) :
    ∀ (A tail2 : List Char), A.Nodup → 3 ≤ A.length → (∀ n ∈ nums, n < U64) →
      (tail2 = [] ∨ tail2 = [(encodeLoop A nums).2.headD 'A'] ∨
        ∃ j2, tail2 = (encodeLoop A nums).2.headD 'A' ::
          (shuffle (encodeLoop A nums).2).headD 'A' :: j2) →
      nums ≠ [] →
      decodeLoop A ((encodeLoop A nums).1 ++ tail2) = some nums := by
  induction nums with
  | nil => intro A t2 _ _ _ _ hne; exact absurd rfl hne
  | cons n rest ih =>
    intro A tail2 hnd hlen hvals htail _
    have hAne : A ≠ [] := by
      intro h; rw [h] at hlen; simp at hlen
    obtain ⟨sep, atail, hA⟩ := List.exists_cons_of_ne_nil hAne
    subst hA
    have hat_len : 2 ≤ atail.length := by
      simp only [List.length_cons] at hlen; omega
    have hndt : atail.Nodup := (List.nodup_cons.mp hnd).2
    have hsep_nt : sep ∉ atail := (List.nodup_cons.mp hnd).1
    have hchunk_sub : ∀ m : Nat, ∀ c ∈ to_id m atail, c ∈ atail := by
      intro m c hc
      exact to_id_mem m atail c hc (by omega)
    have hchunk_nsep : ∀ m : Nat, sep ∉ to_id m atail := by
      intro m hc
      exact hsep_nt (hchunk_sub m sep hc)
    cases rest with
    | nil =>
      -- single number: encodeLoop gives (to_id n atail, sep :: atail)
      have hv : n < U64 := hvals n (List.mem_cons_self n [])
      have hnum : to_number (to_id n atail) atail = some n :=
        to_number_to_id atail hndt hat_len n hv
      have hch1 : (encodeLoop (sep :: atail) [n]).1 = to_id n atail := rfl
      have hch2 : (encodeLoop (sep :: atail) [n]).2 = sep :: atail := rfl
      rcases htail with h | h | ⟨j2, h⟩
      · rw [hch1, h, List.append_nil]
        exact decodeLoop_chunk_last sep atail _ n (to_id_ne_nil n atail)
          (hchunk_nsep n) hnum
      · rw [hch1, h, hch2]
        show decodeLoop (sep :: atail) (to_id n atail ++ sep :: []) = some [n]
        rw [decodeLoop_chunk_sep sep atail _ [] n (to_id_ne_nil n atail)
          (hchunk_nsep n) hnum, decodeLoop_nil]
        rfl
      · rw [hch1, h, hch2]
        rw [show (sep :: atail).headD 'A' = sep from rfl]
        rw [decodeLoop_chunk_sep sep atail _ _ n (to_id_ne_nil n atail)
          (hchunk_nsep n) hnum]
        obtain ⟨s2, t2, hs2⟩ := List.exists_cons_of_ne_nil
          (shuffle_ne_nil (sep :: atail) (List.cons_ne_nil sep atail))
        rw [hs2]
        rw [show (s2 :: t2).headD 'A' = s2 from rfl, decodeLoop_sep_head]
        rfl
    | cons n2 rest2 =>
      have hv : n < U64 := hvals n (List.mem_cons_self n _)
      have hnum : to_number (to_id n atail) atail = some n :=
        to_number_to_id atail hndt hat_len n hv
      have hch1 : (encodeLoop (sep :: atail) (n :: n2 :: rest2)).1 =
          to_id n atail ++ sep :: (encodeLoop (shuffle (sep :: atail)) (n2 :: rest2)).1 := rfl
      have hch2 : (encodeLoop (sep :: atail) (n :: n2 :: rest2)).2 =
          (encodeLoop (shuffle (sep :: atail)) (n2 :: rest2)).2 := rfl
      rw [hch1]
      rw [List.append_assoc, List.cons_append]
      rw [decodeLoop_chunk_sep sep atail _ _ n (to_id_ne_nil n atail) (hchunk_nsep n) hnum]
      have hih := ih (shuffle (sep :: atail)) tail2
        (shuffle_nodup _ hnd)
        (by rw [length_shuffle]; exact hlen)
        (fun m hm => hvals m (List.mem_cons_of_mem n hm))
        (by rw [hch2] at htail; exact htail)
        (List.cons_ne_nil n2 rest2)
      rw [hih]
      rfl

/-! Decoding inverts one full encode pass (any increment), for any
well-formed instance. -/

theorem decode_encodeCandidate (s : Sqids) (hwf : s.WF) (nums : List Nat)
    (hne : nums ≠ []) (hvals : ∀ n ∈ nums, n < U64) (j : Nat) :
    s.decode (encodeCandidate s nums j) = some nums := by
  obtain ⟨hlen3, hnd, _⟩ := hwf
  have hlenpos : 0 < s.alphabet.length := by omega
  have hofflt : (offsetFold s nums + j) % s.alphabet.length < s.alphabet.length :=
    Nat.mod_lt _ hlenpos
  have hcand : encodeCandidate s nums j =
      if ((rotateAt s.alphabet ((offsetFold s nums + j) % s.alphabet.length)).headD 'A' ::
          (encodeLoop (rotateAt s.alphabet
            ((offsetFold s nums + j) % s.alphabet.length)).reverse nums).1).length <
          s.min_length then
        padLoop s.min_length s.min_length
          (encodeLoop (rotateAt s.alphabet
            ((offsetFold s nums + j) % s.alphabet.length)).reverse nums).2
          ((((rotateAt s.alphabet ((offsetFold s nums + j) % s.alphabet.length)).headD 'A' ::
            (encodeLoop (rotateAt s.alphabet
              ((offsetFold s nums + j) % s.alphabet.length)).reverse nums).1)) ++
            [(encodeLoop (rotateAt s.alphabet
              ((offsetFold s nums + j) % s.alphabet.length)).reverse nums).2.headD 'A'])
      else ((rotateAt s.alphabet ((offsetFold s nums + j) % s.alphabet.length)).headD 'A' ::
        (encodeLoop (rotateAt s.alphabet
          ((offsetFold s nums + j) % s.alphabet.length)).reverse nums).1) := rfl
  set off := (offsetFold s nums + j) % s.alphabet.length with hoff
  set A1 := (rotateAt s.alphabet off).reverse with hA1
  set pre := (rotateAt s.alphabet off).headD 'A' with hpredef
  set body := (encodeLoop A1 nums).1 with hbody
  set aF := (encodeLoop A1 nums).2 with haF
  have hA1p : A1.Perm s.alphabet := (List.reverse_perm _).trans (rotateAt_perm _ _)
  have hA1nd : A1.Nodup := hA1p.nodup_iff.mpr hnd
  have hA1len : 3 ≤ A1.length := by rw [hA1p.length_eq]; exact hlen3
  have hA1ne : A1 ≠ [] := by
    intro h; rw [h] at hA1len; simp at hA1len
  have haFp : aF.Perm A1 := encodeLoop_snd_perm nums A1
  have haFlen : 3 ≤ aF.length := by rw [haFp.length_eq]; exact hA1len
  have haFne : aF ≠ [] := by
    intro h; rw [h] at haFlen; simp at haFlen
  have hpreval : pre = s.alphabet[off] := by
    rw [hpredef]; exact headD_rotateAt s.alphabet off hofflt
  have hmem_body : ∀ c ∈ body, c ∈ s.alphabet := by
    intro c hc
    exact hA1p.mem_iff.mp (encodeLoop_fst_mem nums A1 (by omega) c hc)
  have hmem_aF : ∀ c ∈ aF, c ∈ s.alphabet := by
    intro c hc
    exact hA1p.mem_iff.mp (haFp.mem_iff.mp hc)
  have hfinish : ∀ tail2 : List Char, (∀ c ∈ tail2, c ∈ s.alphabet) →
      (tail2 = [] ∨ tail2 = [aF.headD 'A'] ∨
        ∃ j2, tail2 = aF.headD 'A' :: (shuffle aF).headD 'A' :: j2) →
      s.decode (pre :: (body ++ tail2)) = some nums := by
    intro tail2 hmemt ht
    have hall : (pre :: (body ++ tail2)).all (fun c => decide (c ∈ s.alphabet)) = true := by
      rw [List.all_eq_true]
      intro c hc
      rw [decide_eq_true_eq]
      rcases List.mem_cons.mp hc with h | h
      · rw [h, hpreval]; exact List.getElem_mem hofflt
      · rcases List.mem_append.mp h with h2 | h2
        · exact hmem_body c h2
        · exact hmemt c h2
    have hpos : position s.alphabet pre = some off := by
      rw [hpreval]; exact position_getElem s.alphabet hnd off hofflt
    rw [Sqids.decode]
    rw [if_neg (not_not_intro hall), hpos]
    exact decodeLoop_encodeLoop nums A1 tail2 hA1nd hA1len hvals ht hne
  by_cases hpad : (pre :: body).length < s.min_length
  · rw [hcand, if_pos hpad]
    obtain ⟨junk, hj1, hj2, hj3⟩ := padLoop_structure s.min_length s.min_length aF
      ((pre :: body) ++ [aF.headD 'A']) haFne
    rw [hj1]
    have hshape : ((pre :: body) ++ [aF.headD 'A']) ++ junk =
        pre :: (body ++ (aF.headD 'A' :: junk)) := by simp
    rw [hshape]
    apply hfinish
    · intro c hc
      rcases List.mem_cons.mp hc with h | h
      · rw [h]; exact hmem_aF _ (headD_mem aF haFne)
      · exact hmem_aF _ (hj3 c h)
    · rcases hj2 with h | ⟨j2, h⟩
      · right; left; rw [h]
      · right; right; exact ⟨j2, by rw [h]⟩
  · rw [hcand, if_neg hpad]
    have hshape : pre :: body = pre :: (body ++ []) := by simp
    rw [hshape]
    exact hfinish [] (by simp) (Or.inl rfl)

/-! Construction lemmas. -/

theorem utf8Size_le_one_iff (c : Char) : c.utf8Size ≤ 1 ↔ c.toNat < 128 := by
  have h7 : c.toNat = c.val.toBitVec.toNat := rfl
  have h6 : (UInt32.ofNatCore 127 Char.utf8Size.proof_1).toBitVec.toNat = 127 := rfl
  unfold Char.utf8Size
  simp only []
  split_ifs with h1 h2 h3
  · have h5 := BitVec.le_def.mp (UInt32.le_def.mp h1)
    rw [h6] at h5
    constructor
    · intro _; omega
    · intro _; exact le_refl 1
  all_goals
    constructor
  all_goals
    intro hc
  any_goals omega
  all_goals
    exfalso
    apply h1
    rw [UInt32.le_def, BitVec.le_def, h6]
    omega

theorem new_ok_elim (aL : List Char) (ml : Nat) (bl : List (List Char)) (s : Sqids)
    (h : Sqids.new aL ml bl = .ok s) :
    s.alphabet = shuffle aL ∧ s.min_length = ml ∧ (∀ c ∈ aL, c.utf8Size ≤ 1) ∧
      3 ≤ aL.length ∧ aL.Nodup := by
  rw [Sqids.new] at h
  by_cases h1 : aL.any (fun c => 1 < c.utf8Size) = true
  · rw [if_pos h1] at h; exact absurd h (by simp)
  · rw [if_neg h1] at h
    by_cases h2 : aL.length < 3
    · rw [if_pos h2] at h; exact absurd h (by simp)
    · rw [if_neg h2] at h
      by_cases h3 : ¬ aL.Nodup
      · rw [if_pos h3] at h; exact absurd h (by simp)
      · rw [if_neg h3] at h
        injection h with h4
        refine ⟨by rw [← h4], by rw [← h4], ?_, by omega, not_not.mp h3⟩
        intro c hc
        by_contra hcc
        exact h1 (List.any_eq_true.mpr ⟨c, hc, by rw [decide_eq_true_eq]; omega⟩)

theorem new_wf (aL : List Char) (ml : Nat) (bl : List (List Char)) (s : Sqids)
    (h : Sqids.new aL ml bl = .ok s) : s.WF := by
  obtain ⟨ha, _, hbyte, hlen, hnd⟩ := new_ok_elim aL ml bl s h
  refine ⟨?_, ?_, ?_⟩
  · rw [ha, length_shuffle]; exact hlen
  · rw [ha]; exact shuffle_nodup aL hnd
  · intro c hc
    rw [ha] at hc
    exact (utf8Size_le_one_iff c).mp (hbyte c ((mem_shuffle_iff aL c).mp hc))

/-! Characterization of the encode retry loop. -/

theorem encode_numbers_eq (s : Sqids) (nums : List Nat) (inc : Nat) :
    s.encode_numbers nums inc =
      if s.alphabet.length < inc then .error .BlocklistMaxAttempts
      else if s.is_blocked_id (encodeCandidate s nums inc) then
        s.encode_numbers nums (inc + 1)
      else .ok (encodeCandidate s nums inc) := by
  unfold Sqids.encode_numbers
  by_cases h : s.alphabet.length < inc
  · rw [if_pos h]
    have h0 : s.alphabet.length + 1 - inc = 0 := by omega
    rw [h0]
    rfl
  · rw [if_neg h]
    obtain ⟨f, hf⟩ : ∃ f, s.alphabet.length + 1 - inc = f + 1 :=
      ⟨s.alphabet.length - inc, by omega⟩
    rw [hf, encodeNumbersAux, if_neg h]
    have h1 : s.alphabet.length + 1 - (inc + 1) = f := by omega
    rw [h1]

theorem encodeNumbersAux_ok (s : Sqids) (nums : List Nat) :
    ∀ (fuel inc : Nat) (id : List Char), encodeNumbersAux s nums fuel inc = .ok id →
      ∃ j, inc ≤ j ∧ j ≤ s.alphabet.length ∧
        s.is_blocked_id (encodeCandidate s nums j) = false ∧
        id = encodeCandidate s nums j := by
  intro fuel
  induction fuel with
  | zero => intro inc id h; exact absurd h (by simp [encodeNumbersAux])
  | succ f ih =>
    intro inc id h
    rw [encodeNumbersAux] at h
    by_cases h1 : s.alphabet.length < inc
    · rw [if_pos h1] at h; exact absurd h (by simp)
    · rw [if_neg h1] at h
      by_cases h2 : s.is_blocked_id (encodeCandidate s nums inc) = true
      · rw [if_pos h2] at h
        obtain ⟨j, hj1, hj2, hj3, hj4⟩ := ih (inc + 1) id h
        exact ⟨j, by omega, hj2, hj3, hj4⟩
      · rw [if_neg h2] at h
        injection h with h3
        exact ⟨inc, le_refl inc, by omega, by simpa using h2, h3.symm⟩

theorem encode_numbers_ok (s : Sqids) (nums : List Nat) (inc : Nat) (id : List Char)
    (h : s.encode_numbers nums inc = .ok id) :
    ∃ j, inc ≤ j ∧ j ≤ s.alphabet.length ∧
      s.is_blocked_id (encodeCandidate s nums j) = false ∧
      id = encodeCandidate s nums j := by
  exact encodeNumbersAux_ok s nums _ inc id h

theorem encodeNumbersAux_error (s : Sqids) (nums : List Nat) :
    ∀ (fuel inc : Nat) (e : SqidsError), encodeNumbersAux s nums fuel inc = .error e →
      e = .BlocklistMaxAttempts := by
  intro fuel
  induction fuel with
  | zero =>
    intro inc e h
    rw [encodeNumbersAux] at h
    injection h with h1
    exact h1.symm
  | succ f ih =>
    intro inc e h
    rw [encodeNumbersAux] at h
    by_cases h1 : s.alphabet.length < inc
    · rw [if_pos h1] at h
      injection h with h2
      exact h2.symm
    · rw [if_neg h1] at h
      by_cases h2 : s.is_blocked_id (encodeCandidate s nums inc) = true
      · rw [if_pos h2] at h
        exact ih (inc + 1) e h
      · rw [if_neg h2] at h
        exact absurd h (by simp)

/-! Length of the candidate id is never below the configured minimum. -/

theorem encodeCandidate_length (s : Sqids) (h3 : 3 ≤ s.alphabet.length)
    (nums : List Nat) (j : Nat) : s.min_length ≤ (encodeCandidate s nums j).length := by
  have hcand : encodeCandidate s nums j =
      if ((rotateAt s.alphabet ((offsetFold s nums + j) % s.alphabet.length)).headD 'A' ::
          (encodeLoop (rotateAt s.alphabet
            ((offsetFold s nums + j) % s.alphabet.length)).reverse nums).1).length <
          s.min_length then
        padLoop s.min_length s.min_length
          (encodeLoop (rotateAt s.alphabet
            ((offsetFold s nums + j) % s.alphabet.length)).reverse nums).2
          ((((rotateAt s.alphabet ((offsetFold s nums + j) % s.alphabet.length)).headD 'A' ::
            (encodeLoop (rotateAt s.alphabet
              ((offsetFold s nums + j) % s.alphabet.length)).reverse nums).1)) ++
            [(encodeLoop (rotateAt s.alphabet
              ((offsetFold s nums + j) % s.alphabet.length)).reverse nums).2.headD 'A'])
      else ((rotateAt s.alphabet ((offsetFold s nums + j) % s.alphabet.length)).headD 'A' ::
        (encodeLoop (rotateAt s.alphabet
          ((offsetFold s nums + j) % s.alphabet.length)).reverse nums).1) := rfl
  set off := (offsetFold s nums + j) % s.alphabet.length with hoff
  set A1 := (rotateAt s.alphabet off).reverse with hA1
  set pre := (rotateAt s.alphabet off).headD 'A' with hpredef
  set body := (encodeLoop A1 nums).1 with hbody
  set aF := (encodeLoop A1 nums).2 with haF
  have hA1p : A1.Perm s.alphabet := (List.reverse_perm _).trans (rotateAt_perm _ _)
  have haFp : aF.Perm A1 := encodeLoop_snd_perm nums A1
  have haFlen : 3 ≤ aF.length := by
    rw [haFp.length_eq, hA1p.length_eq]; exact h3
  have haFne : aF ≠ [] := by
    intro h; rw [h] at haFlen; simp at haFlen
  by_cases hpad : (pre :: body).length < s.min_length
  · rw [hcand, if_pos hpad]
    exact padLoop_length s.min_length s.min_length aF _ haFne (Nat.sub_le _ _)
  · rw [hcand, if_neg hpad]
    omega

/-! Totality of decoding: the decode loop never hits a panic branch when
every character of the input lies in the (nonempty) working alphabet. -/

theorem to_numberAux_isSome (B : List Char) :
    ∀ (c0 : List Char) (r : Nat), (∀ c ∈ c0, c ∈ B) → (to_numberAux B r c0).isSome := by
  intro c0
  induction c0 with
  | nil => intro r _; rfl
  | cons c rest ih =>
    intro r hmem
    rw [to_numberAux]
    rcases Option.isSome_iff_exists.mp
      (position_isSome_of_mem B c (hmem c (List.mem_cons_self c rest))) with ⟨k, hk⟩
    rw [hk]
    exact ih _ (fun x hx => hmem x (List.mem_cons_of_mem _ hx))

theorem decodeLoopAux_isSome :
    ∀ (fuel : Nat) (A id : List Char), id.length ≤ fuel → A ≠ [] →
      (∀ c ∈ id, c ∈ A) → (decodeLoopAux fuel A id).isSome := by
  intro fuel
  induction fuel with
  | zero =>
    intro A id hlen _ _
    have hid : id = [] := List.length_eq_zero.mp (by omega)
    subst hid
    rfl
  | succ f ih =>
    intro A id hlen hAne hmem
    by_cases hid : id = []
    · subst hid
      simp [decodeLoopAux]
    · obtain ⟨sep, tail, hA⟩ := List.exists_cons_of_ne_nil hAne
      subst hA
      rw [decodeLoopAux.eq_3, if_neg hid]
      cases hch : id.splitOn sep with
      | nil =>
        exact absurd hch (by rw [splitOn_eq_splitOnP]; exact List.splitOnP_ne_nil _ id)
      | cons c0 ctail =>
        simp only []
        by_cases hc0 : c0 = []
        · rw [if_pos hc0]; rfl
        · rw [if_neg hc0]
          have hsepnot := splitOn_head_not_mem sep id c0 ctail hch
          have hrejoin := List.intercalate_splitOn id sep
          rw [hch] at hrejoin
          have hc0sub : ∀ c ∈ c0, c ∈ id := by
            intro c hcm
            rw [← hrejoin]
            cases ctail with
            | nil => rw [intercalate_single]; exact hcm
            | cons c1 rest =>
              rw [intercalate_cons2]
              exact List.mem_append_left _ (List.mem_append_left _ hcm)
          have hnum : (to_number c0 tail).isSome := by
            apply to_numberAux_isSome
            intro c hcm
            rcases List.mem_cons.mp (hmem c (hc0sub c hcm)) with h | h
            · exact absurd (h ▸ hcm) hsepnot
            · exact h
          rcases Option.isSome_iff_exists.mp hnum with ⟨n, hn⟩
          rw [hn]
          have hdec := splitOn_tail_length sep id c0 ctail hch hc0
          have hA2ne : (if ctail.isEmpty then sep :: tail
              else shuffle (sep :: tail)) ≠ [] := by
            by_cases he : ctail.isEmpty
            · rw [if_pos he]; exact List.cons_ne_nil sep tail
            · rw [if_neg he]; exact shuffle_ne_nil _ (List.cons_ne_nil sep tail)
          have hmem2 : ∀ c ∈ [sep].intercalate ctail,
              c ∈ (if ctail.isEmpty then sep :: tail else shuffle (sep :: tail)) := by
            intro c hcm
            have hcA : c ∈ sep :: tail := by
              cases ctail with
              | nil => rw [intercalate_nil_chunks] at hcm; simp at hcm
              | cons c1 rest =>
                apply hmem
                rw [← hrejoin, intercalate_cons2]
                exact List.mem_append_right _ hcm
            by_cases he : ctail.isEmpty
            · rw [if_pos he]; exact hcA
            · rw [if_neg he]; exact (mem_shuffle_iff _ c).mpr hcA
          rcases Option.isSome_iff_exists.mp
            (ih _ ([sep].intercalate ctail) (by omega) hA2ne hmem2) with ⟨ns, hns⟩
          rw [hns]
          rfl

theorem decode_isSome (s : Sqids) (hwf : s.WF) (id : List Char) :
    ∃ out, s.decode id = some out := by
  obtain ⟨hlen3, _, _⟩ := hwf
  cases id with
  | nil => exact ⟨[], rfl⟩
  | cons pre rest =>
    by_cases hall : (pre :: rest).all (fun c => decide (c ∈ s.alphabet)) = true
    · rw [Sqids.decode, if_neg (not_not_intro hall)]
      have hpre : pre ∈ s.alphabet := by
        have := List.all_eq_true.mp hall pre (List.mem_cons_self pre rest)
        simpa using this
      rcases Option.isSome_iff_exists.mp
        (position_isSome_of_mem s.alphabet pre hpre) with ⟨off, hoff⟩
      rw [hoff]
      have hperm : ((rotateAt s.alphabet off).reverse).Perm s.alphabet :=
        (List.reverse_perm _).trans (rotateAt_perm _ _)
      have hAne : (rotateAt s.alphabet off).reverse ≠ [] := by
        intro h
        have := hperm.length_eq
        rw [h] at this
        simp at this
        omega
      have hmem : ∀ c ∈ rest, c ∈ (rotateAt s.alphabet off).reverse := by
        intro c hc
        apply hperm.mem_iff.mpr
        have := List.all_eq_true.mp hall c (List.mem_cons_of_mem pre hc)
        simpa using this
      rcases Option.isSome_iff_exists.mp
        (decodeLoopAux_isSome rest.length _ rest (le_refl _) hAne hmem) with ⟨out, hout⟩
      exact ⟨out, hout⟩
    · rw [Sqids.decode, if_pos hall]
      exact ⟨[], rfl⟩

/-! Support for comparing the shuffle with its specification wording. -/

theorem listSwap_length (l : List Char) (i j : Nat) :
    (listSwap l i j).length = l.length := by
  simp [listSwap]

theorem shuffleStep_eq_spec (l : List Char) (i : Nat) (hi : i + 1 < l.length)
    (hlen : l.length ≤ 2 ^ 16) : shuffleStep l i = specShuffleStep l i := by
  unfold shuffleStep specShuffleStep
  have hci := char_toNat_lt (l.getD i 'A')
  have hcj := char_toNat_lt (l.getD (l.length - 1 - i) 'A')
  have hs : i + (l.length - 1 - i) ≤ 2 ^ 16 := by omega
  have h4 : 4 * (i * (l.length - 1 - i)) ≤
      (i + (l.length - 1 - i)) * (i + (l.length - 1 - i)) := by
    nlinarith [two_mul_le_add_sq i (l.length - 1 - i)]
  have h5 : (i + (l.length - 1 - i)) * (i + (l.length - 1 - i)) ≤ 2 ^ 16 * 2 ^ 16 :=
    Nat.mul_le_mul hs hs
  have hij : i * (l.length - 1 - i) + (l.getD i 'A').toNat +
      (l.getD (l.length - 1 - i) 'A').toNat < U32 := by
    have : i * (l.length - 1 - i) ≤ 2 ^ 30 := by omega
    unfold U32
    omega
  change listSwap l i (((i * (l.length - 1 - i) + (l.getD i 'A').toNat +
      (l.getD (l.length - 1 - i) 'A').toNat) % U32) % l.length) =
    listSwap l i ((i * (l.length - 1 - i) + (l.getD i 'A').toNat +
      (l.getD (l.length - 1 - i) 'A').toNat) % l.length)
  rw [Nat.mod_eq_of_lt hij]

theorem foldl_shuffle_eq_spec :
    ∀ (is : List Nat) (l : List Char), (∀ i ∈ is, i + 1 < l.length) →
      l.length ≤ 2 ^ 16 → is.foldl shuffleStep l = is.foldl specShuffleStep l := by
  intro is
  induction is with
  | nil => intro l _ _; rfl
  | cons i is ih =>
    intro l h hlen
    rw [List.foldl_cons, List.foldl_cons,
      shuffleStep_eq_spec l i (h i (List.mem_cons_self i is)) hlen]
    have hstep : (specShuffleStep l i).length = l.length := by
      unfold specShuffleStep
      exact listSwap_length l i _
    apply ih
    · intro k hk
      rw [hstep]
      exact h k (List.mem_cons_of_mem i hk)
    · rw [hstep]
      exact hlen

/-! Claim theorems. -/

/-- C1: for every successfully constructed Sqids instance and every
non-empty sequence of u64 values for which encode returns Ok(id),
decode(id) returns exactly the original sequence, in order. -/
theorem sqids_C1 (aL : List Char) (ml : Nat) (bl : List (List Char)) (s : Sqids)
    (nums : List Nat) (id : List Char) (hs : Sqids.new aL ml bl = .ok s)
    (hne : nums ≠ []) (hvals : ∀ n ∈ nums, n < U64)
    (henc : s.encode nums = .ok id) : s.decode id = some nums := by
  have hwf := new_wf aL ml bl s hs
  rw [Sqids.encode, if_neg hne] at henc
  obtain ⟨j, _, _, _, hid⟩ := encode_numbers_ok s nums 0 id henc
  rw [hid]
  exact decode_encodeCandidate s hwf nums hne hvals j

set_option maxRecDepth 40000 in
theorem sqids_C1_witness :
    Sqids.decode ⟨"abc".data, 0, []⟩ "aa".data = some [1] :=
  sqids_C1 "abc".data 0 [] ⟨"abc".data, 0, []⟩ [1] "aa".data (by rfl)
    (by decide) (by decide) (by rfl)

/-- C3: for every successfully constructed instance with configured
minimum length and every non-empty input on which encode succeeds, the
id is at least that long. -/
theorem sqids_C3 (aL : List Char) (ml : Nat) (bl : List (List Char)) (s : Sqids)
    (nums : List Nat) (id : List Char) (hs : Sqids.new aL ml bl = .ok s)
    (hne : nums ≠ []) (henc : s.encode nums = .ok id) : ml ≤ id.length := by
  obtain ⟨ha, hm, _, hlen, _⟩ := new_ok_elim aL ml bl s hs
  have h3 : 3 ≤ s.alphabet.length := by rw [ha, length_shuffle]; omega
  rw [Sqids.encode, if_neg hne] at henc
  obtain ⟨j, _, _, _, hid⟩ := encode_numbers_ok s nums 0 id henc
  rw [hid, ← hm]
  exact encodeCandidate_length s h3 nums j

set_option maxRecDepth 40000 in
theorem sqids_C3_witness : (5 : Nat) ≤ ("aacbc".data).length :=
  sqids_C3 "abc".data 5 [] ⟨"abc".data, 5, []⟩ [1] "aacbc".data (by rfl)
    (by decide) (by rfl)

/-- C4: decode returns the empty sequence whenever the input contains a
character outside the canonical alphabet. -/
theorem sqids_C4 (s : Sqids) (id : List Char) (c : Char) (hc : c ∈ id)
    (hnot : c ∉ s.alphabet) : s.decode id = some [] := by
  cases id with
  | nil => simp at hc
  | cons pre rest =>
    have hfalse : ¬ ((pre :: rest).all (fun x => decide (x ∈ s.alphabet)) = true) := by
      rw [List.all_eq_true]
      intro hall
      exact hnot (by simpa using hall c hc)
    rw [Sqids.decode, if_pos hfalse]

theorem sqids_C4_witness : Sqids.decode ⟨"abc".data, 0, []⟩ ['*'] = some [] :=
  sqids_C4 ⟨"abc".data, 0, []⟩ ['*'] '*' (by decide) (by decide)

/-- C5: construction validation checks in order: a multibyte character
fails with AlphabetMultibyteCharacters, then fewer than 3 characters
fails with AlphabetLength, then a repeated character fails with
AlphabetUniqueCharacters; in particular "ab" gives AlphabetLength and
"aabc" gives AlphabetUniqueCharacters, and failure never produces an
instance. -/
theorem sqids_C5 (aL : List Char) (ml : Nat) (bl : List (List Char)) :
    ((∃ c ∈ aL, 1 < c.utf8Size) →
        Sqids.new aL ml bl = .error .AlphabetMultibyteCharacters) ∧
    ((∀ c ∈ aL, c.utf8Size ≤ 1) → aL.length < 3 →
        Sqids.new aL ml bl = .error .AlphabetLength) ∧
    ((∀ c ∈ aL, c.utf8Size ≤ 1) → 3 ≤ aL.length → ¬ aL.Nodup →
        Sqids.new aL ml bl = .error .AlphabetUniqueCharacters) ∧
    Sqids.new "ab".data ml bl = .error .AlphabetLength ∧
    Sqids.new "aabc".data ml bl = .error .AlphabetUniqueCharacters ∧
    (∀ e s, Sqids.new aL ml bl = .error e → Sqids.new aL ml bl ≠ .ok s) := by
  have hany : (∀ c ∈ aL, c.utf8Size ≤ 1) →
      ¬ (aL.any (fun c => decide (1 < c.utf8Size)) = true) := by
    intro hb hx
    rcases List.any_eq_true.mp hx with ⟨c, hc, hdig⟩
    rw [decide_eq_true_eq] at hdig
    have := hb c hc
    omega
  refine ⟨?_, ?_, ?_, ?_, ?_, ?_⟩
  · rintro ⟨c, hc, hsize⟩
    rw [Sqids.new,
      if_pos (List.any_eq_true.mpr ⟨c, hc, by rw [decide_eq_true_eq]; exact hsize⟩)]
  · intro hb hlen
    rw [Sqids.new, if_neg (hany hb), if_pos hlen]
  · intro hb hlen hdup
    rw [Sqids.new, if_neg (hany hb), if_neg (by omega), if_pos hdup]
  · rfl
  · rfl
  · intro e s h1 h2
    rw [h1] at h2
    exact Except.noConfusion h2

theorem sqids_C5_witness :
    Sqids.new ['é', 'a', 'b'] 0 [] = .error .AlphabetMultibyteCharacters ∧
    Sqids.new ['a'] 0 [] = .error .AlphabetLength ∧
    Sqids.new ['a', 'b', 'c', 'b'] 0 [] = .error .AlphabetUniqueCharacters :=
  ⟨(sqids_C5 ['é', 'a', 'b'] 0 []).1 ⟨'é', by decide, by decide⟩,
    (sqids_C5 ['a'] 0 []).2.1 (by decide) (by decide),
    (sqids_C5 ['a', 'b', 'c', 'b'] 0 []).2.2.1 (by decide) (by decide) (by decide)⟩

/-- C6: the retry recursion is bounded by the alphabet length: an
increment beyond the alphabet length fails with BlocklistMaxAttempts, a
blocklist hit retries with increment + 1 exactly, the only possible
failure is BlocklistMaxAttempts, and success always comes from some
attempt between the starting increment and the alphabet length. -/
theorem sqids_C6 (s : Sqids) (nums : List Nat) :
    (∀ inc, s.alphabet.length < inc →
        s.encode_numbers nums inc = .error .BlocklistMaxAttempts) ∧
    (∀ inc, inc ≤ s.alphabet.length →
        s.encode_numbers nums inc =
          if s.is_blocked_id (encodeCandidate s nums inc) then
            s.encode_numbers nums (inc + 1)
          else .ok (encodeCandidate s nums inc)) ∧
    (∀ inc e, s.encode_numbers nums inc = .error e → e = .BlocklistMaxAttempts) ∧
    (∀ inc id, s.encode_numbers nums inc = .ok id →
        ∃ j, inc ≤ j ∧ j ≤ s.alphabet.length ∧ id = encodeCandidate s nums j) := by
  refine ⟨?_, ?_, ?_, ?_⟩
  · intro inc h
    rw [encode_numbers_eq, if_pos h]
  · intro inc h
    rw [encode_numbers_eq, if_neg (by omega)]
  · intro inc e h
    exact encodeNumbersAux_error s nums _ inc e h
  · intro inc id h
    obtain ⟨j, h1, h2, _, h4⟩ := encode_numbers_ok s nums inc id h
    exact ⟨j, h1, h2, h4⟩

theorem sqids_C6_witness :
    Sqids.encode_numbers ⟨"abc".data, 0, []⟩ [1] 4 = .error .BlocklistMaxAttempts ∧
    ∃ j, 0 ≤ j ∧ j ≤ (Sqids.alphabet ⟨"abc".data, 0, []⟩).length ∧
      "aa".data = encodeCandidate ⟨"abc".data, 0, []⟩ [1] j :=
  ⟨(sqids_C6 ⟨"abc".data, 0, []⟩ [1]).1 4 (by decide),
    (sqids_C6 ⟨"abc".data, 0, []⟩ [1]).2.2.2 0 "aa".data (by rfl)⟩

/-- C9: encode of the empty sequence returns Ok of the empty string and
decode of the empty string returns the empty sequence, on every
instance, without touching the retry machinery. -/
theorem sqids_C9 (s : Sqids) : s.encode [] = .ok [] ∧ s.decode [] = some [] :=
  ⟨rfl, rfl⟩

/-- C10: decode is total: on every successfully constructed instance and
every input string it returns a value (the prefix lookup, the position
unwraps inside to_number and the removal of the leading character are
all safe). -/
theorem sqids_C10 (aL : List Char) (ml : Nat) (bl : List (List Char)) (s : Sqids)
    (hs : Sqids.new aL ml bl = .ok s) (id : List Char) :
    ∃ out, s.decode id = some out :=
  decode_isSome s (new_wf aL ml bl s hs) id

theorem sqids_C10_witness :
    ∃ out, Sqids.decode ⟨"abc".data, 0, []⟩ ['é', 'a'] = some out :=
  sqids_C10 "abc".data 0 [] ⟨"abc".data, 0, []⟩ (by rfl) ['é', 'a']

theorem encodeCandidate_bl (a : List Char) (m : Nat) (b b' : List (List Char))
    (nums : List Nat) (j : Nat) :
    encodeCandidate ⟨a, m, b⟩ nums j = encodeCandidate ⟨a, m, b'⟩ nums j := rfl

theorem decode_bl (a : List Char) (m : Nat) (b b' : List (List Char)) (id : List Char) :
    Sqids.decode ⟨a, m, b⟩ id = Sqids.decode ⟨a, m, b'⟩ id := rfl

/-- C2: with the default 62-character alphabet, minimum length 0 and the
default blocklist, encode([1, 2, 3]) returns Ok("86Rf07") and
decode("86Rf07") returns [1, 2, 3].  The bundled default blocklist file
(blocklist.json) is not part of the core sources; the specification
treats it as an opaque external word set, so the blocklist is quantified
here, constrained only by the one fact this scenario needs: the filtered
set does not block "86Rf07".  Neither the candidate construction nor
decode reads the blocklist. -/
theorem sqids_C2 (bl : List (List Char)) (s : Sqids)
    (hs : Sqids.new defaultAlphabet 0 bl = .ok s)
    (hnb : s.is_blocked_id "86Rf07".data = false) :
    s.encode [1, 2, 3] = .ok "86Rf07".data ∧ s.decode "86Rf07".data = some [1, 2, 3] := by
  obtain ⟨ha, hm, _, _, _⟩ := new_ok_elim _ _ _ _ hs
  obtain ⟨α, ml, bl'⟩ := s
  have ha2 : α = shuffle defaultAlphabet := ha
  have hm2 : ml = 0 := hm
  subst ha2 hm2
  have hcand : encodeCandidate ⟨shuffle defaultAlphabet, 0, bl'⟩ [1, 2, 3] 0 =
      "86Rf07".data := by
    rw [encodeCandidate_bl (shuffle defaultAlphabet) 0 bl' []]
    set_option maxRecDepth 1000000 in rfl
  refine ⟨?_, ?_⟩
  · rw [Sqids.encode, if_neg (by simp), encode_numbers_eq, if_neg (by omega), hcand, hnb]
    simp
  · rw [decode_bl (shuffle defaultAlphabet) 0 bl' []]
    set_option maxRecDepth 1000000 in rfl

set_option maxRecDepth 200000 in
theorem sqids_C2_witness :
    Sqids.encode ⟨shuffle defaultAlphabet, 0, []⟩ [1, 2, 3] = .ok "86Rf07".data ∧
    Sqids.decode ⟨shuffle defaultAlphabet, 0, []⟩ "86Rf07".data = some [1, 2, 3] :=
  sqids_C2 [] ⟨shuffle defaultAlphabet, 0, []⟩ (by rfl) (by rfl)

/-- C7: for every character sequence the shuffle returns a permutation
of the same multiset with the same length and is deterministic, and it
is computed by the iteration the specification describes (i from 0 to
n - 2, j = n - 1 - i, r = (i * j + ordinal i + ordinal j) mod n,
swapping i and r); the computed-by part is stated for sequences of at
most 2 ^ 16 characters, within which the u32 arithmetic of the code
cannot wrap (every alphabet the library can build has at most 128). -/
theorem sqids_C7 (cs : List Char) :
    ((shuffle cs).length = cs.length ∧ (shuffle cs).Perm cs ∧
      (∀ ds, cs = ds → shuffle cs = shuffle ds)) ∧
    (1 ≤ cs.length → cs.length ≤ 2 ^ 16 → shuffle cs = specShuffle cs) := by
  refine ⟨⟨length_shuffle cs, shuffle_perm cs, fun ds h => by rw [h]⟩, ?_⟩
  intro _ hlen
  unfold shuffle specShuffle
  apply foldl_shuffle_eq_spec
  · intro i hi
    have := List.mem_range.mp hi
    omega
  · exact hlen

theorem sqids_C7_witness :
    shuffle "abc".data = specShuffle "abc".data ∧
      (shuffle "abc".data).Perm "abc".data :=
  ⟨(sqids_C7 "abc".data).2 (by decide) (by decide), (sqids_C7 "abc".data).1.2.1⟩

/-- C8: is_blocked_id returns true exactly when some word of the
filtered blocklist matches the lowercased id under the rules the
specification states: longer words never match, short ids or words match
only on equality, digit-bearing words match only as a beginning or an
end, and all other words match anywhere inside. -/
theorem sqids_C8 (s : Sqids) (id : List Char) :
    s.is_blocked_id id = true ↔
      ∃ word ∈ s.blocklist, specWordBlocks (id.map Char.toLower) word := by
  have hword : ∀ (w idl : List Char), blocksWord idl w = true ↔ specWordBlocks idl w := by
    intro w idl
    unfold blocksWord specWordBlocks
    by_cases h1 : w.length ≤ idl.length
    · rw [if_pos h1]
      by_cases h2 : idl.length ≤ 3 ∨ w.length ≤ 3
      · have h2b : (decide (idl.length ≤ 3) || decide (w.length ≤ 3)) = true := by
          rcases h2 with h | h <;> simp [h]
        rw [if_pos h2b, if_pos h2, beq_iff_eq]
        constructor
        · intro h3; exact ⟨h1, h3⟩
        · rintro ⟨_, h3⟩; exact h3
      · have h2b : ¬ ((decide (idl.length ≤ 3) || decide (w.length ≤ 3)) = true) :=
          fun hx => h2 (by simpa using hx)
        rw [if_neg h2b, if_neg h2]
        by_cases h3 : w.any Char.isDigit = true
        · have h3p : ∃ c ∈ w, c.isDigit := List.any_eq_true.mp h3
          rw [if_pos h3, if_pos h3p]
          simp [h1]
        · have h3p : ¬ ∃ c ∈ w, c.isDigit :=
            fun hx => h3 (List.any_eq_true.mpr hx)
          rw [if_neg h3, if_neg h3p]
          simp [h1]
    · rw [if_neg h1]
      simp [h1]
  unfold Sqids.is_blocked_id
  rw [List.any_eq_true]
  constructor
  · rintro ⟨w, hw, hb⟩
    exact ⟨w, hw, (hword w _).mp hb⟩
  · rintro ⟨w, hw, hb⟩
    exact ⟨w, hw, (hword w _).mpr hb⟩
